import Mathlib

/-
Verification of the JSON record encoder of `json-env-logger` (src/src/lib.rs).

The encoder `write` serializes one log record as a single JSON line:
it writes `{`, then `"level":"<NAME>",`, then the `ts` field (integer epoch
millis by default, a quoted RFC3339 string under the `iso-timestamps`
feature), then `,"msg":` followed by the message escaped via
`write_json_str` (which delegates to `serde_json::to_writer`), then one
`,"<key>":<value>` chunk per key/value attribute (key and value written via
their `Display` forms, `.unwrap()` on the write result), and finally `}`
plus a newline.

The embedding models the output stream as a sequence of write calls, each
of which may fail with an error code; machine strings are lists of Unicode
scalar values (`List Char`), matching Rust `&str` contents.
-/

set_option maxHeartbeats 1000000
set_option maxRecDepth 4000

/-- Severity levels of the `log` crate (`log::Level`). -/
inductive LogLevel
| error
| warn
| info
| debug
| trace
deriving DecidableEq

/-- The `Display` form of `log::Level`: fixed uppercase names. -/
def levelName : LogLevel → List Char
| .error => "ERROR".data
| .warn => "WARN".data
| .info => "INFO".data
| .debug => "DEBUG".data
| .trace => "TRACE".data

/-- Decimal digit character, `48 + n` is the code of the digit `n`. -/
def digitChar (n : Nat) : Char := Char.ofNat (48 + n)

/-- Fuel-driven decimal printer; with fuel at least `n` it renders `n`
in base 10 with no leading zeros, embedding Rust's `u128` `Display`. -/
def natDigitsGo : Nat → Nat → List Char → List Char
| 0, n, acc => digitChar n :: acc
| fuel + 1, n, acc =>
  if n < 10 then digitChar n :: acc
  else natDigitsGo fuel (n / 10) (digitChar (n % 10) :: acc)

/-- Decimal rendering of a natural number (Rust `u128`/`u64` `Display`). -/
def natDigits (n : Nat) : List Char := natDigitsGo n n []

/-- Decimal rendering of an integer (Rust `i64` `Display`). -/
def intDigits (i : Int) : List Char :=
  if i < 0 then '-' :: natDigits i.natAbs else natDigits i.natAbs

/-- Attribute values of the `log` key/value API as the encoder can see
them: text, integers and booleans (the scalar shapes of `kv::Value`). -/
inductive KVValue
| text (s : List Char)
| int (i : Int)
| bool (b : Bool)
deriving DecidableEq

/-- The `Display` form of `kv::Value`: raw text for strings (no quotes,
no escaping), decimal for integers, `true`/`false` for booleans. -/
def KVValue.display : KVValue → List Char
| .text s => s
| .int i => intDigits i
| .bool b => if b then "true".data else "false".data

/-- Whether a value is of a non-text scalar shape (integer or boolean). -/
def KVValue.isScalar : KVValue → Bool
| .text _ => false
| .int _ => true
| .bool _ => true

/-- One log record: severity, pre-rendered message, ordered attributes. -/
structure LogRecord where
  level : LogLevel
  msg : List Char
  kvs : List (List Char × KVValue)

/-- The output stream: a failure behavior (which write call, if any,
fails and with which error code), a count of write calls made so far,
and the characters written so far. -/
structure Strm where
  fail : Nat → Option Nat
  calls : Nat
  out : List Char

/-- One write call on the stream: fails with the stream's error at the
current call index, or appends the chunk and advances the call counter. -/
def wr (s : Strm) (chunk : List Char) : Except Nat Strm :=
  match s.fail s.calls with
  | some e => .error e
  | none => .ok ⟨s.fail, s.calls + 1, s.out ++ chunk⟩

/-- Observable kind of an encode outcome. -/
inductive OutKind
| ok
| err (e : Nat)
| panicked
deriving DecidableEq

/-- Outcome of one encode call: normal return, a propagated I/O error,
or a panic (from an `unwrap` inside the encoder). -/
inductive Outcome
| ok (s : Strm)
| ioErr (e : Nat) (s : Strm)
| panicked (s : Strm)

/-- The kind of an outcome. -/
def Outcome.kind : Outcome → OutKind
| .ok _ => .ok
| .ioErr e _ => .err e
| .panicked _ => .panicked

/-- The characters present on the stream when the outcome was produced. -/
def Outcome.out : Outcome → List Char
| .ok s => s.out
| .ioErr _ s => s.out
| .panicked s => s.out

/-- A stream that accepts every write, with prior content `w`. -/
def okStrm (w : List Char) : Strm := ⟨fun _ => none, 0, w⟩

/-- The failure behavior that fails exactly at write call `k` with
error code `e`. -/
def failFn (k e : Nat) : Nat → Option Nat :=
  fun i => if i = k then some e else none

/-- A stream that fails exactly at write call `k` with error code `e`. -/
def failAtStrm (k e : Nat) (w : List Char) : Strm := ⟨failFn k e, 0, w⟩

/-- Lowercase hex digit, as used by `serde_json`'s `\u00XX` escapes. -/
def hexDigit (n : Nat) : Char :=
  if n < 10 then Char.ofNat (48 + n) else Char.ofNat (87 + n)

/-- Per-character escaping of `serde_json`'s string serializer: `"` and
`\` get a backslash, the five control characters with short escapes use
them, every other control character below 0x20 becomes `\u00XX`
(lowercase hex), and all remaining characters pass through verbatim. -/
def escapeChar (c : Char) : List Char :=
  if c = '"' then ['\\', '"']
  else if c = '\\' then ['\\', '\\']
  else if c = '\x08' then ['\\', 'b']
  else if c = '\t' then ['\\', 't']
  else if c = '\n' then ['\\', 'n']
  else if c = '\x0c' then ['\\', 'f']
  else if c = '\r' then ['\\', 'r']
  else if c.toNat < 0x20 then
    ['\\', 'u', '0', '0', hexDigit (c.toNat / 16), hexDigit (c.toNat % 16)]
  else [c]

/-- The escaped body of a JSON string literal for the text `s`. -/
def escBody : List Char → List Char
| [] => []
| c :: cs => escapeChar c ++ escBody cs

/-- The complete JSON string literal `serde_json` produces for `s`. -/
def strLit (s : List Char) : List Char := '"' :: escBody s ++ ['"']

/-- Embedding of `write_json_str` (lib.rs 187-193): `serde_json::to_writer`
on a `&str`, modelled as one stream write of the JSON string literal; a
stream write error propagates via `?`. -/
def writeJsonStr (s : Strm) (raw : List Char) : Except Nat Strm :=
  wr s (strLit raw)

/-- The `ts` field chunk (lib.rs 147-162): with `iso-timestamps` a quoted
RFC3339 string from the time source, otherwise the unquoted decimal epoch
milliseconds. The Rust code obtains millis via
`UNIX_EPOCH.elapsed().unwrap()`: a clock before the epoch panics
(unrecoverable), so the time source is modelled as a total `Nat`. -/
def tsChunk (iso : Bool) (isoStr : List Char) (millis : Nat) : List Char :=
  if iso then "\"ts\":\"".data ++ isoStr ++ ['"']
  else "\"ts\":".data ++ natDigits millis

/-- The chunk `Visitor::visit_pair` (lib.rs 171-178) writes for one
attribute: `,"<key>":<value>` with the key's `Display` form placed raw
between quotes and the value's `Display` form raw and unquoted. -/
def pairChunk (k : List Char) (v : KVValue) : List Char :=
  ',' :: '"' :: k ++ '"' :: ':' :: v.display

/-- All attribute chunks, in record order. -/
def pairsChunk : List (List Char × KVValue) → List Char
| [] => []
| (k, v) :: rest => pairChunk k v ++ pairsChunk rest

/-- The attribute visiting loop: one write call per pair; a write error
is hit by `.unwrap()` (lib.rs 176), which panics, modelled as `.error`
carrying the stream state at the failed write. -/
def visitAll : Strm → List (List Char × KVValue) → Except Strm Strm
| s, [] => .ok s
| s, (k, v) :: rest =>
  match wr s (pairChunk k v) with
  | .error _ => .error s
  | .ok s' => visitAll s' rest

/-- One `write!` call followed by `?`: on a stream error the encoder
returns it immediately (carrying the stream state before the failed
write); otherwise encoding continues. -/
def encStep (s : Strm) (chunk : List Char) (k : Strm → Outcome) : Outcome :=
  match wr s chunk with
  | .error e => .ioErr e s
  | .ok s' => k s'

/-- The `write_json_str(f, ...)?` call of the encoder. -/
def encStepJson (s : Strm) (raw : List Char) (k : Strm → Outcome) : Outcome :=
  match writeJsonStr s raw with
  | .error e => .ioErr e s
  | .ok s' => k s'

/-- The attribute visiting phase: a write failure inside the visitor is
unwrapped, so it panics instead of returning an error. -/
def encVisit (s : Strm) (kvs : List (List Char × KVValue))
    (k : Strm → Outcome) : Outcome :=
  match visitAll s kvs with
  | .error sp => .panicked sp
  | .ok s' => k s'

/-- Embedding of `write` (lib.rs 137-184), the JSON record encoder: the
five prefix write calls propagate stream errors via `?`; the attribute
write calls are unwrapped (a failure panics); the final `}` plus newline
write propagates its error as the return value. -/
def encodeWith (iso : Bool) (millis : Nat) (isoStr : List Char)
    (r : LogRecord) (s0 : Strm) : Outcome :=
  encStep s0 ['\x7b'] fun s1 =>
  encStep s1 ("\"level\":\"".data ++ levelName r.level ++ "\",".data) fun s2 =>
  encStep s2 (tsChunk iso isoStr millis) fun s3 =>
  encStep s3 ",\"msg\":".data fun s4 =>
  encStepJson s4 r.msg fun s5 =>
  encVisit s5 r.kvs fun s6 =>
  encStep s6 ['\x7d', '\n'] fun s7 => .ok s7

/-- The full line the encoder emits when every write succeeds. -/
def encodeLine (iso : Bool) (millis : Nat) (isoStr : List Char)
    (r : LogRecord) : List Char :=
  '\x7b' :: ("\"level\":\"".data ++ levelName r.level ++ "\",".data) ++
    tsChunk iso isoStr millis ++ ",\"msg\":".data ++ strLit r.msg ++
    pairsChunk r.kvs ++ ['\x7d', '\n']

/-- Panic payloads as `panic_hook` (lib.rs 67-73) distinguishes them:
a `&'static str`, an owned `String`, or anything else. -/
inductive PanicPayload
| strRef (s : List Char)
| strOwned (s : List Char)
| other

/-- The message text `panic_hook` extracts from the payload: the string
for either string shape, the literal `Box<Any>` otherwise. -/
def panicMsg : PanicPayload → List Char
| .strRef s => s
| .strOwned s => s
| .other => "Box<Any>".data

/-- The thread name used by `panic_hook`: `thread.name().unwrap_or("unnamed")`. -/
def panicThreadName : Option (List Char) → List Char
| some n => n
| none => "unnamed".data

/-- The apostrophe character (code 39). -/
def apos : Char := Char.ofNat 39

/-- The formatted message of the panic diagnostic record:
`panicked at '<msg>'`. -/
def panicRecordMsg (p : PanicPayload) : List Char :=
  "panicked at ".data ++ [apos] ++ panicMsg p ++ [apos]

/-- The diagnostic record `panic_hook` feeds to the encoder in the
default (non-backtrace) build: level error, the formatted message, a
`thread` attribute, and a `location` attribute when a location exists. -/
def panicRecord (p : PanicPayload) (nm : Option (List Char))
    (loc : Option (List Char)) : LogRecord :=
  { level := .error
    msg := panicRecordMsg p
    kvs :=
      match loc with
      | some l => [("thread".data, .text (panicThreadName nm)),
                   ("location".data, .text l)]
      | none => [("thread".data, .text (panicThreadName nm))] }

/-
The JSON grammar, stated from the spec's words: a decidable parser used
to settle the claims that a produced line does (or does not) parse as
valid JSON, together with a string-literal decoder for the round-trip
law. These definitions follow the JSON specification, not the repository
code.
-/

/-- JSON values; number lexemes are kept as their raw character runs. -/
inductive Json
| null
| bool (b : Bool)
| num (lexeme : List Char)
| str (s : List Char)
| arr (elems : List Json)
| obj (members : List (List Char × Json))

/-- JSON insignificant whitespace. -/
def isWsCh (c : Char) : Bool :=
  c = ' ' || c = '\t' || c = '\n' || c = '\r'

/-- Skip insignificant whitespace. -/
def skipWs (s : List Char) : List Char := s.dropWhile isWsCh

/-- ASCII decimal digit test. -/
def isDigitCh (c : Char) : Bool := '0' ≤ c && c ≤ '9'

/-- Value of one hex digit, if the character is one. -/
def hexVal (c : Char) : Option Nat :=
  if '0' ≤ c && c ≤ '9' then some (c.toNat - 48)
  else if 'a' ≤ c && c ≤ 'f' then some (c.toNat - 87)
  else if 'A' ≤ c && c ≤ 'F' then some (c.toNat - 55)
  else none

/-- Value of four hex digits. -/
def hex4 (h1 h2 h3 h4 : Char) : Option Nat :=
  match hexVal h1, hexVal h2, hexVal h3, hexVal h4 with
  | some a, some b, some c, some d => some (((a * 16 + b) * 16 + c) * 16 + d)
  | _, _, _, _ => none

/-- Decode the low half of a surrogate pair: expects `\uXXXX` with a
low-surrogate value and combines it with the high-surrogate value `v`. -/
def pEscPair (v : Nat) : List Char → Option (Char × List Char)
| b1 :: b2 :: g1 :: g2 :: g3 :: g4 :: r4 =>
  if b1 = '\\' && b2 = 'u' then
    match hex4 g1 g2 g3 g4 with
    | none => none
    | some w =>
      if 0xDC00 ≤ w && w < 0xE000 then
        some (Char.ofNat (0x10000 + (v - 0xD800) * 0x400 + (w - 0xDC00)), r4)
      else none
  else none
| _ => none

/-- Decode one JSON string escape (the input starts after the
backslash): the named single-character escapes, or `\uXXXX` with
surrogate-pair handling; lone surrogates are rejected. -/
def pEsc : List Char → Option (Char × List Char)
| [] => none
| e :: r =>
  if e = '"' then some ('"', r)
  else if e = '\\' then some ('\\', r)
  else if e = '/' then some ('/', r)
  else if e = 'b' then some ('\x08', r)
  else if e = 'f' then some ('\x0c', r)
  else if e = 'n' then some ('\n', r)
  else if e = 'r' then some ('\r', r)
  else if e = 't' then some ('\t', r)
  else if e = 'u' then
    match r with
    | h1 :: h2 :: h3 :: h4 :: r3 =>
      match hex4 h1 h2 h3 h4 with
      | none => none
      | some v =>
        if v < 0xD800 || 0xE000 ≤ v then some (Char.ofNat v, r3)
        else if v < 0xDC00 then pEscPair v r3
        else none
    | _ => none
  else none

/-- Decode the body of a JSON string literal after its opening quote:
yields the decoded text and the input after the closing quote. Raw
control characters are rejected. Fuel-driven; every step consumes at
least one input character, so fuel beyond the input length never runs
out. -/
def pStrBody : Nat → List Char → Option (List Char × List Char)
| 0, _ => none
| fuel + 1, s =>
  match s with
  | [] => none
  | c :: rest =>
    if c = '"' then some ([], rest)
    else if c = '\\' then
      match pEsc rest with
      | none => none
      | some (d, r2) => (pStrBody fuel r2).map fun p => (d :: p.1, p.2)
    else if c.toNat < 0x20 then none
    else (pStrBody fuel rest).map fun p => (c :: p.1, p.2)

/-- Decode a complete JSON string literal with nothing following it. -/
def decodeStringLit (t : List Char) : Option (List Char) :=
  match t with
  | [] => none
  | c :: r =>
    if c = '"' then
      match pStrBody (r.length + 1) r with
      | some (s, rest) => if rest = [] then some s else none
      | none => none
    else none

/-- Integer part of a JSON number: `0`, or a nonzero digit followed by
digits. -/
def pIntPart : List Char → Option (List Char × List Char)
| [] => none
| c :: rest =>
  if c = '0' then some (['0'], rest)
  else if isDigitCh c then
    some (c :: rest.takeWhile isDigitCh, rest.dropWhile isDigitCh)
  else none

/-- Optional fraction part of a JSON number. -/
def pFracPart : List Char → List Char × List Char
| [] => ([], [])
| c :: rest =>
  if c = '.' then
    match rest.takeWhile isDigitCh with
    | [] => ([], c :: rest)
    | d :: ds => (c :: d :: ds, rest.dropWhile isDigitCh)
  else ([], c :: rest)

/-- Optional exponent part of a JSON number. -/
def pExpPart : List Char → List Char × List Char
| [] => ([], [])
| c :: rest =>
  if c = 'e' || c = 'E' then
    match rest with
    | [] => ([], [c])
    | s :: rest2 =>
      if s = '+' || s = '-' then
        match rest2.takeWhile isDigitCh with
        | [] => ([], c :: s :: rest2)
        | d :: ds => (c :: s :: d :: ds, rest2.dropWhile isDigitCh)
      else
        match rest.takeWhile isDigitCh with
        | [] => ([], c :: rest)
        | d :: ds => (c :: d :: ds, rest.dropWhile isDigitCh)
  else ([], c :: rest)

/-- A JSON number token: optional minus, integer part, optional
fraction and exponent; yields the lexeme and the remaining input. -/
def pNum : List Char → Option (List Char × List Char)
| [] => none
| c :: rest =>
  if c = '-' then
    match pIntPart rest with
    | none => none
    | some (ds, r1) =>
      let fp := pFracPart r1
      let ep := pExpPart fp.2
      some ('-' :: ds ++ fp.1 ++ ep.1, ep.2)
  else
    match pIntPart (c :: rest) with
    | none => none
    | some (ds, r1) =>
      let fp := pFracPart r1
      let ep := pExpPart fp.2
      some (ds ++ fp.1 ++ ep.1, ep.2)

/-- Mode of the recursive JSON parser: a value, object members, or
array elements. -/
inductive PMode
| val
| members
| elems

/-- Result of the recursive JSON parser in each mode. -/
inductive PRes
| v (j : Json)
| ms (l : List (List Char × Json))
| es (l : List Json)

/-- Wrap a members-mode result into an object value. -/
def finishObj (mp : PRes × List Char) : Option (PRes × List Char) :=
  match mp.1 with
  | .ms l => some (.v (.obj l), mp.2)
  | _ => none

/-- Wrap an elems-mode result into an array value. -/
def finishArr (ep : PRes × List Char) : Option (PRes × List Char) :=
  match ep.1 with
  | .es l => some (.v (.arr l), ep.2)
  | _ => none

/-- One step of parsing a JSON value; `recM` and `recE` parse object
members and array elements at the next recursion depth. -/
def pValStep (recM recE : List Char → Option (PRes × List Char))
    (s : List Char) : Option (PRes × List Char) :=
  match skipWs s with
  | [] => none
  | c :: rest =>
    if c = '"' then
      (pStrBody (rest.length + 1) rest).map fun p => (.v (.str p.1), p.2)
    else if c = '\x7b' then
      match skipWs rest with
      | [] => none
      | c2 :: rest2 =>
        if c2 = '\x7d' then some (.v (.obj []), rest2)
        else (recM (c2 :: rest2)).bind finishObj
    else if c = '[' then
      match skipWs rest with
      | [] => none
      | c2 :: rest2 =>
        if c2 = ']' then some (.v (.arr []), rest2)
        else (recE (c2 :: rest2)).bind finishArr
    else if c = 't' then
      match rest with
      | 'r' :: 'u' :: 'e' :: r => some (.v (.bool true), r)
      | _ => none
    else if c = 'f' then
      match rest with
      | 'a' :: 'l' :: 's' :: 'e' :: r => some (.v (.bool false), r)
      | _ => none
    else if c = 'n' then
      match rest with
      | 'u' :: 'l' :: 'l' :: r => some (.v .null, r)
      | _ => none
    else (pNum (c :: rest)).map fun p => (.v (.num p.1), p.2)

/-- Continue one object member after its value has been parsed: a comma
continues with more members via `recM`, a closing brace ends the
object. -/
def pMemberAfterVal (recM : List Char → Option (PRes × List Char))
    (key : List Char) (jv : Json) (r3 : List Char) :
    Option (PRes × List Char) :=
  match skipWs r3 with
  | [] => none
  | c3 :: r4 =>
    if c3 = ',' then
      (recM r4).bind fun mp =>
        match mp.1 with
        | .ms l => some (.ms ((key, jv) :: l), mp.2)
        | _ => none
    else if c3 = '\x7d' then some (.ms [(key, jv)], r4)
    else none

/-- Continue one object member after its key: expects a colon, then a
value via `recV`. -/
def pMemberAfterKey (recV recM : List Char → Option (PRes × List Char))
    (key : List Char) (r1 : List Char) : Option (PRes × List Char) :=
  match skipWs r1 with
  | [] => none
  | c2 :: r2 =>
    if c2 = ':' then
      (recV r2).bind fun vp =>
        match vp.1 with
        | .v jv => pMemberAfterVal recM key jv vp.2
        | _ => none
    else none

/-- One step of parsing a nonempty object member sequence up to and
including the closing brace. -/
def pMembersStep (recV recM : List Char → Option (PRes × List Char))
    (s : List Char) : Option (PRes × List Char) :=
  match skipWs s with
  | [] => none
  | c :: rest =>
    if c = '"' then
      (pStrBody (rest.length + 1) rest).bind fun kp =>
        pMemberAfterKey recV recM kp.1 kp.2
    else none

/-- One step of parsing a nonempty array element sequence up to and
including the closing bracket. -/
def pElemsStep (recV recE : List Char → Option (PRes × List Char))
    (s : List Char) : Option (PRes × List Char) :=
  (recV s).bind fun vp =>
    match vp.1 with
    | .v jv =>
      match skipWs vp.2 with
      | [] => none
      | c :: r2 =>
        if c = ',' then
          (recE r2).bind fun ep =>
            match ep.1 with
            | .es l => some (.es (jv :: l), ep.2)
            | _ => none
        else if c = ']' then some (.es [jv], r2)
        else none
    | _ => none

/-- Fuel-driven recursive descent over the JSON grammar, dispatching to
the step functions by mode. -/
def pRun : Nat → PMode → List Char → Option (PRes × List Char)
| 0, _, _ => none
| fuel + 1, .val, s => pValStep (pRun fuel .members) (pRun fuel .elems) s
| fuel + 1, .members, s => pMembersStep (pRun fuel .val) (pRun fuel .members) s
| fuel + 1, .elems, s => pElemsStep (pRun fuel .val) (pRun fuel .elems) s

/-- Parse one line as a JSON text: one value with only whitespace after
it, with fuel one more than the input length (each grammar level
consumes at least one character, so this fuel is always sufficient). -/
def parseJsonLine (s : List Char) : Option Json :=
  match pRun (s.length + 1) .val s with
  | some (.v j, rest) => if skipWs rest = [] then some j else none
  | _ => none

/-
Lemma layer: string-literal round trip, decimal digits, number tokens,
and symbolic parsing of constructed member sequences.
-/

theorem pStrBody_quote (fuel : Nat) (rest : List Char) :
    pStrBody (fuel + 1) ('"' :: rest) = some ([], rest) := by
  rw [pStrBody]; rfl

theorem pStrBody_plain (fuel : Nat) (c : Char) (rest : List Char)
    (h1 : c ≠ '"') (h2 : c ≠ '\\') (h3 : ¬ c.toNat < 0x20) :
    pStrBody (fuel + 1) (c :: rest) =
      (pStrBody fuel rest).map fun p => (c :: p.1, p.2) := by
  rw [pStrBody]
  simp only [if_neg h1, if_neg h2, if_neg h3]

theorem pStrBody_esc (fuel : Nat) (rest : List Char) :
    pStrBody (fuel + 1) ('\\' :: rest) =
      match pEsc rest with
      | none => none
      | some (d, r2) => (pStrBody fuel r2).map fun p => (d :: p.1, p.2) := by
  rw [pStrBody]; rfl

theorem pEsc_escapeChar (c : Char) (t : List Char)
    (h : c = '"' ∨ c = '\\' ∨ c.toNat < 0x20) :
    pEsc ((escapeChar c).tail ++ t) = some (c, t) := by
  rcases h with h | h | h
  · subst h; rfl
  · subst h; rfl
  · obtain ⟨n, hn, rfl⟩ : ∃ n, n < 0x20 ∧ c = Char.ofNat n :=
      ⟨c.toNat, h, (Char.ofNat_toNat c).symm⟩
    interval_cases n <;> exact rfl

theorem escapeChar_eta (c : Char) (h : c = '"' ∨ c = '\\' ∨ c.toNat < 0x20) :
    escapeChar c = '\\' :: (escapeChar c).tail := by
  rcases h with h | h | h
  · subst h; rfl
  · subst h; rfl
  · obtain ⟨n, hn, rfl⟩ : ∃ n, n < 0x20 ∧ c = Char.ofNat n :=
      ⟨c.toNat, h, (Char.ofNat_toNat c).symm⟩
    interval_cases n <;> exact rfl

/-- Escaping a character that needs no escape passes it through. -/
theorem escapeChar_plain (c : Char) (h1 : c ≠ '"') (h2 : c ≠ '\\')
    (h3 : ¬ c.toNat < 0x20) : escapeChar c = [c] := by
  have hb : c ≠ '\x08' := fun hx => h3 (by rw [hx]; decide)
  have ht : c ≠ '\t' := fun hx => h3 (by rw [hx]; decide)
  have hn : c ≠ '\n' := fun hx => h3 (by rw [hx]; decide)
  have hf : c ≠ '\x0c' := fun hx => h3 (by rw [hx]; decide)
  have hr : c ≠ '\r' := fun hx => h3 (by rw [hx]; decide)
  rw [escapeChar, if_neg h1, if_neg h2, if_neg hb, if_neg ht, if_neg hn,
    if_neg hf, if_neg hr, if_neg h3]

/-- Round trip of one escaped string body: decoding the serde-escaped
body of `s` followed by a closing quote yields `s` exactly. -/
theorem pStrBody_escBody (s : List Char) : ∀ (fuel : Nat) (rest : List Char),
    s.length < fuel →
    pStrBody fuel (escBody s ++ '"' :: rest) = some (s, rest) := by
  induction s with
  | nil =>
    intro fuel rest h
    obtain ⟨f, rfl⟩ : ∃ f, fuel = f + 1 := ⟨fuel - 1, by omega⟩
    exact pStrBody_quote f rest
  | cons c cs ih =>
    intro fuel rest h
    obtain ⟨f, rfl⟩ : ∃ f, fuel = f + 1 := ⟨fuel - 1, by omega⟩
    have hcs : cs.length < f := by simpa using h
    rw [escBody]
    by_cases he : c = '"' ∨ c = '\\' ∨ c.toNat < 0x20
    · rw [List.append_assoc, escapeChar_eta c he, List.cons_append,
        pStrBody_esc, pEsc_escapeChar c _ he]
      show (pStrBody f (escBody cs ++ '"' :: rest)).map
        (fun p => (c :: p.1, p.2)) = some (c :: cs, rest)
      rw [ih f rest hcs]
      rfl
    · have h1 : c ≠ '"' := fun hx => he (Or.inl hx)
      have h2 : c ≠ '\\' := fun hx => he (Or.inr (Or.inl hx))
      have h3 : ¬ c.toNat < 0x20 := fun hx => he (Or.inr (Or.inr hx))
      rw [escapeChar_plain c h1 h2 h3, List.cons_append, List.nil_append,
        List.cons_append, pStrBody_plain f c _ h1 h2 h3, ih f rest hcs]
      rfl

/-- Escaping cannot shrink a string. -/
theorem escBody_length (s : List Char) : s.length ≤ (escBody s).length := by
  induction s with
  | nil => simp [escBody]
  | cons c cs ih =>
    rw [escBody, List.length_append, List.length_cons]
    have : 1 ≤ (escapeChar c).length := by
      rw [escapeChar]
      split_ifs <;> simp
    omega

theorem isDigitCh_digitChar (n : Nat) (h : n < 10) :
    isDigitCh (digitChar n) = true := by
  interval_cases n <;> decide

/-- Every character the decimal printer emits is a digit, and the first
one is nonzero when the number is positive. -/
theorem natDigitsGo_spec : ∀ (fuel n : Nat) (acc : List Char), n ≤ fuel →
    ∃ d t, natDigitsGo fuel n acc = digitChar d :: t ∧ d < 10 ∧
      (1 ≤ n → 1 ≤ d) ∧
      (∀ c ∈ t, isDigitCh c = true ∨ c ∈ acc) := by
  intro fuel
  induction fuel with
  | zero =>
    intro n acc h
    obtain rfl : n = 0 := by omega
    exact ⟨0, acc, rfl, by omega, by omega, fun c hc => Or.inr hc⟩
  | succ f ih =>
    intro n acc h
    by_cases hn : n < 10
    · refine ⟨n, acc, ?_, hn, fun h1 => h1, fun c hc => Or.inr hc⟩
      rw [natDigitsGo, if_pos hn]
    · have hdivle : n / 10 ≤ f := by
        have := Nat.div_lt_self (by omega : 0 < n) (by omega : 1 < 10)
        omega
      obtain ⟨d, t, heq, hd10, hd1, ht⟩ :=
        ih (n / 10) (digitChar (n % 10) :: acc) hdivle
      refine ⟨d, t, ?_, hd10, fun _ => hd1 ?_, fun c hc => ?_⟩
      · rw [natDigitsGo, if_neg hn]; exact heq
      · have : 10 / 10 ≤ n / 10 := Nat.div_le_div_right (by omega)
        omega
      · rcases ht c hc with hd | hmem
        · exact Or.inl hd
        · rcases List.mem_cons.mp hmem with rfl | hacc
          · exact Or.inl (isDigitCh_digitChar _ (Nat.mod_lt _ (by omega)))
          · exact Or.inr hacc

/-- The decimal rendering is a nonzero-leading digit string. -/
theorem natDigits_spec (n : Nat) :
    ∃ d t, natDigits n = digitChar d :: t ∧ d < 10 ∧ (1 ≤ n → 1 ≤ d) ∧
      ∀ c ∈ t, isDigitCh c = true := by
  obtain ⟨d, t, heq, hd10, hd1, ht⟩ := natDigitsGo_spec n n [] (Nat.le_refl n)
  exact ⟨d, t, heq, hd10, hd1, fun c hc => (ht c hc).resolve_right (by simp)⟩

/-- All characters of the decimal rendering are digits. -/
theorem natDigits_all_digits (n : Nat) :
    (natDigits n).all isDigitCh = true := by
  obtain ⟨d, t, heq, hd10, _, ht⟩ := natDigits_spec n
  rw [heq, List.all_cons, isDigitCh_digitChar d hd10, List.all_eq_true.mpr ht]
  rfl

theorem takeWhile_all_append (p : Char → Bool) (l r : List Char)
    (h : ∀ c ∈ l, p c = true) : (l ++ r).takeWhile p = l ++ r.takeWhile p := by
  induction l with
  | nil => simp
  | cons c cs ih =>
    rw [List.cons_append, List.takeWhile_cons, if_pos (h c (by simp)),
      ih (fun x hx => h x (by simp [hx])), List.cons_append]

theorem dropWhile_all_append (p : Char → Bool) (l r : List Char)
    (h : ∀ c ∈ l, p c = true) : (l ++ r).dropWhile p = r.dropWhile p := by
  induction l with
  | nil => simp
  | cons c cs ih =>
    rw [List.cons_append, List.dropWhile_cons, if_pos (h c (by simp))]
    exact ih (fun x hx => h x (by simp [hx]))

/-- A list whose head cannot continue a JSON number token. -/
def numStop (t : List Char) : Bool :=
  match t with
  | [] => true
  | c :: _ => !(isDigitCh c || c = '.' || c = 'e' || c = 'E')

theorem takeWhile_numStop (t : List Char) (h : numStop t = true) :
    t.takeWhile isDigitCh = [] ∧ t.dropWhile isDigitCh = t := by
  cases t with
  | nil => exact ⟨rfl, rfl⟩
  | cons c t' =>
    simp only [numStop, Bool.not_eq_true', Bool.or_eq_false_iff] at h
    rw [List.takeWhile_cons, if_neg (by simp [h.1.1.1]),
      List.dropWhile_cons, if_neg (by simp [h.1.1.1])]
    exact ⟨rfl, rfl⟩

theorem pFracPart_numStop (t : List Char) (h : numStop t = true) :
    pFracPart t = ([], t) := by
  cases t with
  | nil => rfl
  | cons c t' =>
    simp only [numStop, Bool.not_eq_true', Bool.or_eq_false_iff,
      decide_eq_false_iff_not] at h
    rw [pFracPart, if_neg h.1.1.2]

theorem pExpPart_numStop (t : List Char) (h : numStop t = true) :
    pExpPart t = ([], t) := by
  cases t with
  | nil => rfl
  | cons c t' =>
    simp only [numStop, Bool.not_eq_true', Bool.or_eq_false_iff,
      decide_eq_false_iff_not] at h
    simp only [pExpPart.eq_def]
    rw [if_neg (by simp [h.1.2, h.2])]

theorem pIntPart_natDigits (n : Nat) (t : List Char) (h : numStop t = true) :
    pIntPart (natDigits n ++ t) = some (natDigits n, t) := by
  obtain ⟨tw, dw⟩ := takeWhile_numStop t h
  by_cases hn : n = 0
  · subst hn
    rw [show natDigits 0 = ['0'] from rfl, List.cons_append, List.nil_append,
      pIntPart, if_pos rfl]
  · obtain ⟨d, ds, heq, hd10, hd1, hds⟩ := natDigits_spec n
    have hd1' : 1 ≤ d := hd1 (by omega)
    rw [heq, List.cons_append, pIntPart,
      if_neg (by interval_cases d <;> decide : digitChar d ≠ '0'),
      if_pos (by interval_cases d <;> decide : isDigitCh (digitChar d) = true),
      takeWhile_all_append _ _ _ hds, dropWhile_all_append _ _ _ hds, tw, dw,
      List.append_nil]

theorem pNum_natDigits (n : Nat) (t : List Char) (h : numStop t = true) :
    pNum (natDigits n ++ t) = some (natDigits n, t) := by
  obtain ⟨d, ds, heq, hd10, _, _⟩ := natDigits_spec n
  have hpi := pIntPart_natDigits n t h
  rw [heq] at hpi ⊢
  rw [List.cons_append, pNum,
    if_neg (by interval_cases d <;> decide : digitChar d ≠ '-'),
    show digitChar d :: (ds ++ t) = (digitChar d :: ds) ++ t from rfl, hpi]
  simp only [pFracPart_numStop t h, pExpPart_numStop t h, List.append_nil]

theorem pNum_negNatDigits (n : Nat) (t : List Char) (h : numStop t = true) :
    pNum ('-' :: natDigits n ++ t) = some ('-' :: natDigits n, t) := by
  have hpi := pIntPart_natDigits n t h
  rw [List.cons_append, pNum, if_pos rfl, hpi]
  simp only [pFracPart_numStop t h, pExpPart_numStop t h, List.append_nil]

theorem skipWs_cons (c : Char) (r : List Char) (h : isWsCh c = false) :
    skipWs (c :: r) = c :: r := by
  rw [skipWs, List.dropWhile_cons, h]
  rfl

/-- Step lemma: a value beginning with a quote parses its string body. -/
theorem pValStep_quote (recM recE : List Char → Option (PRes × List Char))
    (rest : List Char) :
    pValStep recM recE ('"' :: rest) =
      (pStrBody (rest.length + 1) rest).map fun p => (.v (.str p.1), p.2) := rfl

/-- Step lemma: a value beginning with a number-ish character parses a
number token. -/
theorem pValStep_num (recM recE : List Char → Option (PRes × List Char))
    (c : Char) (rest : List Char)
    (hw : isWsCh c = false) (h1 : c ≠ '"') (h2 : c ≠ '\x7b') (h3 : c ≠ '[')
    (h4 : c ≠ 't') (h5 : c ≠ 'f') (h6 : c ≠ 'n') :
    pValStep recM recE (c :: rest) =
      (pNum (c :: rest)).map fun p => (.v (.num p.1), p.2) := by
  rw [pValStep, skipWs_cons c rest hw]
  simp only [if_neg h1, if_neg h2, if_neg h3, if_neg h4, if_neg h5, if_neg h6]

/-- A character that needs no JSON string escaping. -/
def plainChar (c : Char) : Bool :=
  decide (c ≠ '"' ∧ c ≠ '\\' ∧ 0x20 ≤ c.toNat)

/-- Text consisting only of characters needing no JSON string escaping. -/
def plainChars (s : List Char) : Bool := s.all plainChar

/-- Decoding a plain-character string body finds the closing quote. -/
theorem pStrBody_plainKey (k : List Char) : ∀ (fuel : Nat) (rest : List Char),
    k.length < fuel → plainChars k = true →
    pStrBody fuel (k ++ '"' :: rest) = some (k, rest) := by
  induction k with
  | nil =>
    intro fuel rest h _
    obtain ⟨f, rfl⟩ : ∃ f, fuel = f + 1 := ⟨fuel - 1, by omega⟩
    exact pStrBody_quote f rest
  | cons c cs ih =>
    intro fuel rest h hp
    obtain ⟨f, rfl⟩ : ∃ f, fuel = f + 1 := ⟨fuel - 1, by omega⟩
    rw [plainChars, List.all_cons, Bool.and_eq_true] at hp
    obtain ⟨h1, h2, h3⟩ := of_decide_eq_true hp.1
    rw [List.cons_append,
      pStrBody_plain f c _ h1 h2 (by omega), ih f rest (by simpa using h) hp.2]
    rfl

/-- The continuation after an object member: a comma or closing brace. -/
def memStop (t : List Char) : Prop :=
  t.head? = some ',' ∨ t.head? = some '\x7d'

theorem memStop_shape (t : List Char) (h : memStop t) :
    ∃ c t', t = c :: t' ∧ (c = ',' ∨ c = '\x7d') := by
  rcases h with h | h <;> (cases t with
    | nil => simp at h
    | cons c t' => exact ⟨c, t', rfl, by simp at h; simp [h]⟩)

theorem memStop_numStop (t : List Char) (h : memStop t) : numStop t = true := by
  obtain ⟨c, t', rfl, hc⟩ := memStop_shape t h
  rcases hc with rfl | rfl <;> rfl

/-- `v` is the exact text of one JSON value `jv` when followed by a
member continuation. -/
def JValText (v : List Char) (jv : Json) : Prop :=
  ∀ (f : Nat) (t : List Char), memStop t →
    pRun (f + 1) .val (v ++ t) = some (.v jv, t)

/-- A serde string literal is the value text of the decoded string. -/
theorem jval_strLit (s : List Char) : JValText (strLit s) (.str s) := by
  intro f t _
  rw [show strLit s ++ t = '"' :: (escBody s ++ '"' :: t) by simp [strLit]]
  rw [pRun, pValStep_quote, pStrBody_escBody s _ t
    (by have := escBody_length s; simp [List.length_append]; omega)]
  rfl

/-- A raw-quoted plain string is the value text of that string. -/
theorem jval_quotedPlain (k : List Char) (hk : plainChars k = true) :
    JValText ('"' :: (k ++ ['"'])) (.str k) := by
  intro f t _
  rw [show ('"' :: (k ++ ['"'])) ++ t = '"' :: (k ++ '"' :: t) by simp]
  rw [pRun, pValStep_quote, pStrBody_plainKey k _ t
    (by simp [List.length_append]; omega) hk]
  rfl

/-- Decimal digits are the value text of the number with that lexeme. -/
theorem jval_natDigits (n : Nat) : JValText (natDigits n) (.num (natDigits n)) := by
  intro f t hst
  obtain ⟨d, ds, heq, hd10, _, _⟩ := natDigits_spec n
  have hnum := pNum_natDigits n t (memStop_numStop t hst)
  rw [heq] at hnum ⊢
  rw [List.cons_append, pRun, pValStep_num _ _ (digitChar d) _
    (by interval_cases d <;> decide) (by interval_cases d <;> decide)
    (by interval_cases d <;> decide) (by interval_cases d <;> decide)
    (by interval_cases d <;> decide) (by interval_cases d <;> decide)
    (by interval_cases d <;> decide)]
  rw [show digitChar d :: (ds ++ t) = (digitChar d :: ds) ++ t from rfl, hnum]
  rfl

/-- An integer display is the value text of the number with that lexeme. -/
theorem jval_intDigits (i : Int) : JValText (intDigits i) (.num (intDigits i)) := by
  by_cases hi : i < 0
  · intro f t hst
    have hnum := pNum_negNatDigits i.natAbs t (memStop_numStop t hst)
    rw [intDigits, if_pos hi] at *
    rw [List.cons_append, pRun, pValStep_num _ _ '-' _
      (by decide) (by decide) (by decide) (by decide) (by decide) (by decide)
      (by decide)]
    rw [show '-' :: (natDigits i.natAbs ++ t) = '-' :: natDigits i.natAbs ++ t
      from rfl, hnum]
    rfl
  · rw [intDigits, if_neg hi]
    exact jval_natDigits i.natAbs

/-- The boolean displays are value texts of the booleans. -/
theorem jval_boolDisplay (b : Bool) :
    JValText (KVValue.display (.bool b)) (.bool b) := by
  cases b <;> intro f t _
  · show pRun (f + 1) .val ('f' :: 'a' :: 'l' :: 's' :: 'e' :: t) = _
    rw [pRun]
    rfl
  · show pRun (f + 1) .val ('t' :: 'r' :: 'u' :: 'e' :: t) = _
    rw [pRun]
    rfl

theorem obind_some {α β : Type} (a : α) (f : α → Option β) :
    (some a).bind f = f a := rfl

theorem pMembersStep_quote (recV recM : List Char → Option (PRes × List Char))
    (rest : List Char) :
    pMembersStep recV recM ('"' :: rest) =
      (pStrBody (rest.length + 1) rest).bind fun kp =>
        pMemberAfterKey recV recM kp.1 kp.2 := rfl

theorem pMemberAfterKey_colon (recV recM : List Char → Option (PRes × List Char))
    (key r2 : List Char) :
    pMemberAfterKey recV recM key (':' :: r2) =
      (recV r2).bind fun vp =>
        match vp.1 with
        | .v jv => pMemberAfterVal recM key jv vp.2
        | _ => none := rfl

theorem pMemberAfterVal_brace (recM : List Char → Option (PRes × List Char))
    (key : List Char) (jv : Json) (r4 : List Char) :
    pMemberAfterVal recM key jv ('\x7d' :: r4) = some (.ms [(key, jv)], r4) := rfl

theorem pMemberAfterVal_comma (recM : List Char → Option (PRes × List Char))
    (key : List Char) (jv : Json) (r4 : List Char) :
    pMemberAfterVal recM key jv (',' :: r4) =
      (recM r4).bind fun mp =>
        match mp.1 with
        | .ms l => some (.ms ((key, jv) :: l), mp.2)
        | _ => none := rfl

/-- One abstract object member: its key, the exact text of its value,
and the JSON value that text denotes. -/
structure PMember where
  key : List Char
  valText : List Char
  jv : Json

/-- The exact text of a nonempty member sequence, from after the
object's opening brace through its closing brace, followed by `after`. -/
def renderMembers : List PMember → List Char → List Char
| [], after => after
| [m], after => '"' :: (m.key ++ ('"' :: ':' :: (m.valText ++ ('\x7d' :: after))))
| m :: m2 :: ms, after =>
  '"' :: (m.key ++ ('"' :: ':' :: (m.valText ++ (',' :: renderMembers (m2 :: ms) after))))

/-- Parsing a rendered member sequence yields exactly its members. -/
theorem pRun_members (ms : List PMember) : ∀ (f : Nat) (after : List Char),
    ms ≠ [] →
    (∀ m ∈ ms, plainChars m.key = true ∧ JValText m.valText m.jv) →
    pRun (f + ms.length + 1) .members (renderMembers ms after) =
      some (.ms (ms.map fun m => (m.key, m.jv)), after) := by
  induction ms with
  | nil => intro f after hne _; exact absurd rfl hne
  | cons m rest ih =>
    intro f after _ hall
    obtain ⟨hkey, hval⟩ := hall m (by simp)
    cases rest with
    | nil =>
      show pRun (f + 1 + 1) .members
        ('"' :: (m.key ++ ('"' :: ':' :: (m.valText ++ ('\x7d' :: after))))) = _
      rw [show f + 1 + 1 = (f + 1) + 1 from rfl, pRun, pMembersStep_quote,
        show m.key ++ ('"' :: ':' :: (m.valText ++ ('\x7d' :: after))) =
          m.key ++ '"' :: (':' :: (m.valText ++ ('\x7d' :: after))) from rfl,
        pStrBody_plainKey m.key _ _ (by simp [List.length_append]; omega) hkey,
        obind_some]
      simp only []
      rw [pMemberAfterKey_colon,
        hval f ('\x7d' :: after) (Or.inr rfl), obind_some]
      simp only []
      rw [pMemberAfterVal_brace]
      rfl
    | cons m2 ms' =>
      have hfuel : f + (m :: m2 :: ms').length + 1 =
          (f + (m2 :: ms').length + 1) + 1 := by
        simp [List.length_cons]
        omega
      rw [hfuel, renderMembers, pRun, pMembersStep_quote,
        show m.key ++ ('"' :: ':' :: (m.valText ++ (',' :: renderMembers (m2 :: ms') after))) =
          m.key ++ '"' :: (':' :: (m.valText ++ (',' :: renderMembers (m2 :: ms') after))) from rfl,
        pStrBody_plainKey m.key _ _ (by simp [List.length_append]; omega) hkey,
        obind_some]
      simp only []
      rw [pMemberAfterKey_colon,
        show f + (m2 :: ms').length + 1 = (f + (m2 :: ms').length) + 1 from rfl,
        hval (f + (m2 :: ms').length) (',' :: renderMembers (m2 :: ms') after) (Or.inl rfl),
        obind_some]
      simp only []
      rw [pMemberAfterVal_comma,
        ih f after (by simp) (fun x hx => hall x (by simp [hx])), obind_some]
      rfl

/-- A nonempty rendered member sequence starts with a quote. -/
theorem renderMembers_shape (ms : List PMember) (after : List Char)
    (hne : ms ≠ []) : ∃ R, renderMembers ms after = '"' :: R := by
  cases ms with
  | nil => exact absurd rfl hne
  | cons m rest => cases rest with
    | nil => exact ⟨_, rfl⟩
    | cons m2 ms' => exact ⟨_, rfl⟩

theorem pValStep_objMembers (recM recE : List Char → Option (PRes × List Char))
    (R : List Char) :
    pValStep recM recE ('\x7b' :: ('"' :: R)) = (recM ('"' :: R)).bind finishObj := rfl

/-- Parsing a braced rendered member sequence yields the object. -/
theorem pRun_obj (ms : List PMember) (f : Nat) (after : List Char)
    (hne : ms ≠ [])
    (hall : ∀ m ∈ ms, plainChars m.key = true ∧ JValText m.valText m.jv) :
    pRun (f + ms.length + 2) .val ('\x7b' :: renderMembers ms after) =
      some (.v (.obj (ms.map fun m => (m.key, m.jv))), after) := by
  obtain ⟨R, hR⟩ := renderMembers_shape ms after hne
  rw [show f + ms.length + 2 = (f + ms.length + 1) + 1 from rfl, hR, pRun,
    pValStep_objMembers, ← hR, pRun_members ms f after hne hall, obind_some]
  rfl

/-- The JSON value an attribute denotes when its display form is JSON. -/
def kvJson : KVValue → Json
| .text s => .str s
| .int i => .num (intDigits i)
| .bool b => .bool b

/-- The abstract member of one record attribute. -/
def attrMember (p : List Char × KVValue) : PMember :=
  ⟨p.1, p.2.display, kvJson p.2⟩

/-- The abstract member list of one record: level, ts, msg, then the
attributes in record order. -/
def recordMembers (iso : Bool) (millis : Nat) (isoStr : List Char)
    (r : LogRecord) : List PMember :=
  ⟨"level".data, '"' :: (levelName r.level ++ ['"']), .str (levelName r.level)⟩ ::
  (if iso then ⟨"ts".data, '"' :: (isoStr ++ ['"']), .str isoStr⟩
   else ⟨"ts".data, natDigits millis, .num (natDigits millis)⟩) ::
  ⟨"msg".data, strLit r.msg, .str r.msg⟩ ::
  r.kvs.map attrMember

theorem sdata_levelKey : "\"level\":\"".data =
    '"' :: 'l' :: 'e' :: 'v' :: 'e' :: 'l' :: '"' :: ':' :: '"' :: [] := rfl
theorem sdata_quoteComma : "\",".data = '"' :: ',' :: [] := rfl
theorem sdata_ts : "\"ts\":".data = '"' :: 't' :: 's' :: '"' :: ':' :: [] := rfl
theorem sdata_tsQ : "\"ts\":\"".data = '"' :: 't' :: 's' :: '"' :: ':' :: '"' :: [] := rfl
theorem sdata_msg : ",\"msg\":".data = ',' :: '"' :: 'm' :: 's' :: 'g' :: '"' :: ':' :: [] := rfl
theorem sdata_level : "level".data = 'l' :: 'e' :: 'v' :: 'e' :: 'l' :: [] := rfl
theorem sdata_tsKey : "ts".data = 't' :: 's' :: [] := rfl
theorem sdata_msgKey : "msg".data = 'm' :: 's' :: 'g' :: [] := rfl

/-- The member rendering of a member followed by attribute members. -/
theorem renderMembers_attrTail (kvs : List (List Char × KVValue)) :
    ∀ (mem : PMember) (after : List Char),
    renderMembers (mem :: kvs.map attrMember) after =
      '"' :: (mem.key ++ ('"' :: ':' :: (mem.valText ++
        (pairsChunk kvs ++ '\x7d' :: after)))) := by
  induction kvs with
  | nil =>
    intro mem after
    simp [renderMembers, pairsChunk]
  | cons p ps ih =>
    intro mem after
    rw [List.map_cons, renderMembers, ih (attrMember p) after]
    simp [attrMember, pairsChunk, pairChunk, List.append_assoc]

/-- The encoder's full line is the braced rendering of its members. -/
theorem encodeLine_renderMembers (iso : Bool) (millis : Nat)
    (isoStr : List Char) (r : LogRecord) :
    encodeLine iso millis isoStr r =
      '\x7b' :: renderMembers (recordMembers iso millis isoStr r) ['\n'] := by
  rw [recordMembers, renderMembers, renderMembers,
    renderMembers_attrTail r.kvs _ ['\n']]
  cases iso <;>
    simp [encodeLine, tsChunk, sdata_levelKey, sdata_quoteComma, sdata_ts,
      sdata_tsQ, sdata_msg, sdata_level, sdata_tsKey, sdata_msgKey,
      List.append_assoc]

/-- Rendered member sequences are long enough to feed the parser fuel. -/
theorem renderMembers_length (ms : List PMember) : ∀ (after : List Char),
    ms ≠ [] →
    ms.length + after.length + 1 ≤ (renderMembers ms after).length := by
  induction ms with
  | nil => intro after hne; exact absurd rfl hne
  | cons m rest ih =>
    intro after _
    cases rest with
    | nil =>
      simp [renderMembers, List.length_append]
      omega
    | cons m2 ms' =>
      have := ih after (by simp)
      simp [renderMembers, List.length_append] at this ⊢
      omega

/-- The parsed form of an encoded line, given JSON-compatible attribute
keys and values and (in iso mode) a JSON-safe timestamp string. -/
theorem parseJsonLine_encodeLine (iso : Bool) (millis : Nat)
    (isoStr : List Char) (r : LogRecord)
    (hiso : iso = true → plainChars isoStr = true)
    (hkeys : ∀ p ∈ r.kvs, plainChars p.1 = true)
    (hvals : ∀ p ∈ r.kvs, (p.2 : KVValue).isScalar = true) :
    parseJsonLine (encodeLine iso millis isoStr r) =
      some (.obj ((recordMembers iso millis isoStr r).map
        fun m => (m.key, m.jv))) := by
  have hall : ∀ m ∈ recordMembers iso millis isoStr r,
      plainChars m.key = true ∧ JValText m.valText m.jv := by
    intro m hm
    rw [recordMembers] at hm
    rcases List.mem_cons.mp hm with rfl | hm
    · exact ⟨show plainChars "level".data = true by decide,
        jval_quotedPlain (levelName r.level) (by cases r.level <;> decide)⟩
    rcases List.mem_cons.mp hm with rfl | hm
    · cases iso with
      | false => exact ⟨show plainChars "ts".data = true by decide,
          jval_natDigits millis⟩
      | true => exact ⟨show plainChars "ts".data = true by decide,
          jval_quotedPlain isoStr (hiso rfl)⟩
    rcases List.mem_cons.mp hm with rfl | hm
    · exact ⟨show plainChars "msg".data = true by decide, jval_strLit r.msg⟩
    · obtain ⟨p, hp, rfl⟩ := List.mem_map.mp hm
      refine ⟨hkeys p hp, ?_⟩
      have hsc := hvals p hp
      cases hv : p.2 with
      | text s => rw [hv] at hsc; exact absurd hsc (by simp [KVValue.isScalar])
      | int i =>
        show JValText (KVValue.display p.2) (kvJson p.2)
        rw [hv]
        exact jval_intDigits i
      | bool b =>
        show JValText (KVValue.display p.2) (kvJson p.2)
        rw [hv]
        exact jval_boolDisplay b
  have hne : recordMembers iso millis isoStr r ≠ [] := by
    rw [recordMembers]; simp
  have hlen := renderMembers_length (recordMembers iso millis isoStr r) ['\n'] hne
  rw [parseJsonLine, encodeLine_renderMembers]
  obtain ⟨f, hf⟩ : ∃ f,
      ('\x7b' :: renderMembers (recordMembers iso millis isoStr r) ['\n']).length + 1 =
        f + (recordMembers iso millis isoStr r).length + 2 := by
    refine ⟨('\x7b' :: renderMembers (recordMembers iso millis isoStr r) ['\n']).length + 1 -
      ((recordMembers iso millis isoStr r).length + 2), ?_⟩
    simp only [List.length_cons] at *
    omega
  rw [hf, pRun_obj _ f ['\n'] hne hall]
  rfl

theorem encStep_ok (s : Strm) (chunk : List Char) (k : Strm → Outcome)
    (h : s.fail s.calls = none) :
    encStep s chunk k = k ⟨s.fail, s.calls + 1, s.out ++ chunk⟩ := by
  rw [encStep, wr, h]

theorem encStep_err (s : Strm) (chunk : List Char) (k : Strm → Outcome)
    (e : Nat) (h : s.fail s.calls = some e) :
    encStep s chunk k = .ioErr e s := by
  rw [encStep, wr, h]

theorem encStepJson_ok (s : Strm) (raw : List Char) (k : Strm → Outcome)
    (h : s.fail s.calls = none) :
    encStepJson s raw k = k ⟨s.fail, s.calls + 1, s.out ++ strLit raw⟩ := by
  rw [encStepJson, writeJsonStr, wr, h]

theorem encStepJson_err (s : Strm) (raw : List Char) (k : Strm → Outcome)
    (e : Nat) (h : s.fail s.calls = some e) :
    encStepJson s raw k = .ioErr e s := by
  rw [encStepJson, writeJsonStr, wr, h]

/-- Visiting all attributes over a stream that never fails appends
exactly the attribute chunks and advances the call counter. -/
theorem visitAll_ok (kvs : List (List Char × KVValue)) : ∀ (s : Strm),
    (∀ i, s.fail i = none) →
    visitAll s kvs = .ok ⟨s.fail, s.calls + kvs.length, s.out ++ pairsChunk kvs⟩ := by
  induction kvs with
  | nil =>
    intro s h
    cases s
    simp [visitAll, pairsChunk]
  | cons p rest ih =>
    intro s h
    obtain ⟨kk, vv⟩ := p
    rw [visitAll, wr, h s.calls]
    show visitAll ⟨s.fail, s.calls + 1, s.out ++ pairChunk kk vv⟩ rest = _
    rw [ih ⟨s.fail, s.calls + 1, s.out ++ pairChunk kk vv⟩ (fun i => h i)]
    simp [pairsChunk, List.append_assoc]
    omega

theorem encVisit_ok (s : Strm) (kvs : List (List Char × KVValue))
    (k : Strm → Outcome) (h : ∀ i, s.fail i = none) :
    encVisit s kvs k = k ⟨s.fail, s.calls + kvs.length, s.out ++ pairsChunk kvs⟩ := by
  rw [encVisit, visitAll_ok kvs s h]

/-- Over a stream that never fails, the encoder returns normally having
appended exactly the full line and made `6 + n` write calls. -/
theorem encodeWith_okStream (iso : Bool) (millis : Nat) (isoStr : List Char)
    (r : LogRecord) (s0 : Strm) (h : ∀ i, s0.fail i = none) :
    encodeWith iso millis isoStr r s0 =
      .ok ⟨s0.fail, s0.calls + 6 + r.kvs.length,
           s0.out ++ encodeLine iso millis isoStr r⟩ := by
  rw [encodeWith, encStep_ok _ _ _ (by exact h _), encStep_ok _ _ _ (by exact h _),
    encStep_ok _ _ _ (by exact h _), encStep_ok _ _ _ (by exact h _),
    encStepJson_ok _ _ _ (by exact h _),
    encVisit_ok _ _ _ (by exact fun i => h i), encStep_ok _ _ _ (by exact h _)]
  simp only [Outcome.ok.injEq, Strm.mk.injEq, encodeLine, List.append_assoc,
    List.cons_append, List.nil_append]
  refine ⟨trivial, by omega, trivial⟩

/-- When visiting succeeds, it has appended exactly the attribute
chunks, preserved the failure behavior, and advanced the counter. -/
theorem visitAll_ok_shape (kvs : List (List Char × KVValue)) : ∀ (s s' : Strm),
    visitAll s kvs = .ok s' →
    s'.fail = s.fail ∧ s'.calls = s.calls + kvs.length ∧
      s'.out = s.out ++ pairsChunk kvs := by
  induction kvs with
  | nil =>
    intro s s' h
    rw [visitAll] at h
    cases h
    simp [pairsChunk]
  | cons p rest ih =>
    intro s s' h
    obtain ⟨kk, vv⟩ := p
    rw [visitAll] at h
    cases h0 : s.fail s.calls with
    | some e => rw [wr, h0] at h; exact Except.noConfusion h
    | none =>
      rw [wr, h0] at h
      replace h : visitAll ⟨s.fail, s.calls + 1, s.out ++ pairChunk kk vv⟩ rest
          = .ok s' := h
      obtain ⟨hf, hc, ho⟩ := ih _ s' h
      refine ⟨hf, by simp at hc ⊢; omega, ?_⟩
      rw [ho]
      simp [pairsChunk, List.append_assoc]

/-- When the encoder returns normally, the bytes it appended are
exactly the full encoded line. -/
theorem encodeWith_ok_shape (iso : Bool) (millis : Nat) (isoStr : List Char)
    (r : LogRecord) (s0 s' : Strm)
    (hok : encodeWith iso millis isoStr r s0 = .ok s') :
    s'.out = s0.out ++ encodeLine iso millis isoStr r := by
  rw [encodeWith] at hok
  cases h0 : s0.fail s0.calls with
  | some e => rw [encStep_err _ _ _ e h0] at hok; exact Outcome.noConfusion hok
  | none =>
  rw [encStep_ok _ _ _ h0] at hok
  cases h1 : s0.fail (s0.calls + 1) with
  | some e => rw [encStep_err _ _ _ e (by exact h1)] at hok
              exact Outcome.noConfusion hok
  | none =>
  rw [encStep_ok _ _ _ (by exact h1)] at hok
  cases h2 : s0.fail (s0.calls + 1 + 1) with
  | some e => rw [encStep_err _ _ _ e (by exact h2)] at hok
              exact Outcome.noConfusion hok
  | none =>
  rw [encStep_ok _ _ _ (by exact h2)] at hok
  cases h3 : s0.fail (s0.calls + 1 + 1 + 1) with
  | some e => rw [encStep_err _ _ _ e (by exact h3)] at hok
              exact Outcome.noConfusion hok
  | none =>
  rw [encStep_ok _ _ _ (by exact h3)] at hok
  cases h4 : s0.fail (s0.calls + 1 + 1 + 1 + 1) with
  | some e => rw [encStepJson_err _ _ _ e (by exact h4)] at hok
              exact Outcome.noConfusion hok
  | none =>
  rw [encStepJson_ok _ _ _ (by exact h4)] at hok
  rw [encVisit] at hok
  cases hv : visitAll ⟨s0.fail, s0.calls + 1 + 1 + 1 + 1 + 1,
      s0.out ++ ['\x7b'] ++ ("\"level\":\"".data ++ levelName r.level ++ "\",".data) ++
        tsChunk iso isoStr millis ++ ",\"msg\":".data ++ strLit r.msg⟩ r.kvs with
  | error sp => rw [hv] at hok; exact Outcome.noConfusion hok
  | ok s6 =>
  rw [hv] at hok
  replace hok : encStep s6 ['\x7d', '\n'] (fun s7 => .ok s7) = .ok s' := hok
  obtain ⟨hf6, hc6, ho6⟩ := visitAll_ok_shape r.kvs _ s6 hv
  cases h6 : s6.fail s6.calls with
  | some e => rw [encStep_err _ _ _ e h6] at hok; exact Outcome.noConfusion hok
  | none =>
  rw [encStep_ok _ _ _ h6] at hok
  cases hok
  rw [ho6]
  simp [encodeLine, List.append_assoc]

theorem failFn_ne (k e i : Nat) (h : i ≠ k) : failFn k e i = none := if_neg h

theorem failFn_eq (k e : Nat) : failFn k e k = some e := if_pos rfl

/-- Visiting over a fail-at-`k` stream succeeds when `k` is outside the
attribute call range. -/
theorem visitAll_failFn_ok (kvs : List (List Char × KVValue)) :
    ∀ (c : Nat) (w : List Char) (k e : Nat),
    (k < c ∨ c + kvs.length ≤ k) →
    visitAll ⟨failFn k e, c, w⟩ kvs =
      .ok ⟨failFn k e, c + kvs.length, w ++ pairsChunk kvs⟩ := by
  induction kvs with
  | nil =>
    intro c w k e _
    simp [visitAll, pairsChunk]
  | cons p rest ih =>
    intro c w k e hk
    obtain ⟨kk, vv⟩ := p
    rw [visitAll, wr, show (⟨failFn k e, c, w⟩ : Strm).fail
      (⟨failFn k e, c, w⟩ : Strm).calls = none from
      failFn_ne k e c (by simp at hk ⊢; omega)]
    show visitAll ⟨failFn k e, c + 1, w ++ pairChunk kk vv⟩ rest = _
    rw [ih (c + 1) _ k e (by simp at hk ⊢; omega)]
    simp [pairsChunk, List.append_assoc]
    omega

/-- Visiting over a fail-at-`k` stream panics when `k` is one of the
attribute write calls. -/
theorem visitAll_failFn_panic (kvs : List (List Char × KVValue)) :
    ∀ (c : Nat) (w : List Char) (k e : Nat),
    c ≤ k → k < c + kvs.length →
    ∃ sp, visitAll ⟨failFn k e, c, w⟩ kvs = .error sp := by
  induction kvs with
  | nil =>
    intro c w k e h1 h2
    simp at h2
    omega
  | cons p rest ih =>
    intro c w k e h1 h2
    obtain ⟨kk, vv⟩ := p
    by_cases hck : c = k
    · subst hck
      rw [visitAll, wr, show (⟨failFn c e, c, w⟩ : Strm).fail
        (⟨failFn c e, c, w⟩ : Strm).calls = some e from failFn_eq c e]
      exact ⟨_, rfl⟩
    · rw [visitAll, wr, show (⟨failFn k e, c, w⟩ : Strm).fail
        (⟨failFn k e, c, w⟩ : Strm).calls = none from failFn_ne k e c hck]
      show ∃ sp, visitAll ⟨failFn k e, c + 1, w ++ pairChunk kk vv⟩ rest = .error sp
      exact ih (c + 1) _ k e (by omega) (by simp at h2 ⊢; omega)

/-- Classification of the tail of the encoder (attribute visiting plus
the final brace write) over a fail-at-`k` stream. -/
theorem encTail_failFn (kvs : List (List Char × KVValue)) (c : Nat)
    (w : List Char) (k e : Nat) :
    (encVisit ⟨failFn k e, c, w⟩ kvs
      (fun s6 => encStep s6 ['\x7d', '\n'] fun s7 => .ok s7)).kind =
      if c ≤ k ∧ k < c + kvs.length then .panicked
      else if k = c + kvs.length then .err e
      else .ok := by
  by_cases h1 : c ≤ k ∧ k < c + kvs.length
  · obtain ⟨sp, hsp⟩ := visitAll_failFn_panic kvs c w k e h1.1 h1.2
    rw [encVisit, hsp, if_pos h1]
    rfl
  · rw [encVisit, visitAll_failFn_ok kvs c w k e (by omega), if_neg h1]
    by_cases h2 : k = c + kvs.length
    · rw [if_pos h2]
      show (encStep ⟨failFn k e, c + kvs.length, w ++ pairsChunk kvs⟩
        ['\x7d', '\n'] fun s7 => Outcome.ok s7).kind = OutKind.err e
      rw [encStep_err _ _ _ e (by
        show failFn k e (c + kvs.length) = some e
        rw [← h2]; exact failFn_eq k e)]
      rfl
    · rw [if_neg h2]
      show (encStep ⟨failFn k e, c + kvs.length, w ++ pairsChunk kvs⟩
        ['\x7d', '\n'] fun s7 => Outcome.ok s7).kind = OutKind.ok
      rw [encStep_ok _ _ _ (by exact failFn_ne k e _ (fun hx => h2 hx.symm))]
      rfl

/-- Full classification of the encoder's outcome over a stream failing
exactly at write call `k`: prefix-field failures (calls 0 to 4) and the
final-brace failure return the error verbatim, attribute-write failures
panic, and later `k` never fires. -/
theorem encodeWith_failAt_classify (iso : Bool) (millis : Nat)
    (isoStr : List Char) (r : LogRecord) (k e : Nat) (w : List Char) :
    (encodeWith iso millis isoStr r (failAtStrm k e w)).kind =
      if k < 5 then .err e
      else if k < 5 + r.kvs.length then .panicked
      else if k = 5 + r.kvs.length then .err e
      else .ok := by
  by_cases h0 : k < 5
  · rw [if_pos h0]
    interval_cases k
    · rw [failAtStrm, encodeWith, encStep_err _ _ _ e rfl]
      rfl
    · rw [failAtStrm, encodeWith, encStep_ok _ _ _ rfl,
        encStep_err _ _ _ e rfl]
      rfl
    · rw [failAtStrm, encodeWith, encStep_ok _ _ _ rfl, encStep_ok _ _ _ rfl,
        encStep_err _ _ _ e rfl]
      rfl
    · rw [failAtStrm, encodeWith, encStep_ok _ _ _ rfl, encStep_ok _ _ _ rfl,
        encStep_ok _ _ _ rfl, encStep_err _ _ _ e rfl]
      rfl
    · rw [failAtStrm, encodeWith, encStep_ok _ _ _ rfl, encStep_ok _ _ _ rfl,
        encStep_ok _ _ _ rfl, encStep_ok _ _ _ rfl,
        encStepJson_err _ _ _ e rfl]
      rfl
  · rw [if_neg h0, failAtStrm, encodeWith,
      encStep_ok _ _ _ (by exact failFn_ne k e 0 (by omega)),
      encStep_ok _ _ _ (by exact failFn_ne k e (0 + 1) (by omega)),
      encStep_ok _ _ _ (by exact failFn_ne k e (0 + 1 + 1) (by omega)),
      encStep_ok _ _ _ (by exact failFn_ne k e (0 + 1 + 1 + 1) (by omega)),
      encStepJson_ok _ _ _ (by exact failFn_ne k e (0 + 1 + 1 + 1 + 1) (by omega)),
      encTail_failFn r.kvs (0 + 1 + 1 + 1 + 1 + 1) _ k e]
    split_ifs <;> first | rfl | omega

/-
Claim theorems.
-/

/-- C1: the code contradicts the claim: `visit_pair` writes the key and
value via their raw `Display` forms, so for the key `challenge "key"`
with a string value containing raw quotes and braces, the encoder
returns success yet the emitted line does not parse as JSON at all. -/
theorem c1_attr_pair_unescaped_breaks_json :
    (encodeWith false 0 [] ⟨.info, "m".data,
      [("challenge \"key\"".data, .text "say \"hi\" \x7b\x7d".data)]⟩
      (okStrm [])).kind = .ok ∧
    parseJsonLine (encodeWith false 0 [] ⟨.info, "m".data,
      [("challenge \"key\"".data, .text "say \"hi\" \x7b\x7d".data)]⟩
      (okStrm [])).out = none := ⟨rfl, rfl⟩

/-- C2: escape/decode round-trip law of `write_json_str`: the encoder
writes exactly the serde string literal of the input, and decoding that
literal as a JSON string literal yields the input exactly, for every
input including the empty string and strings with quotes, backslashes,
control characters, and arbitrary Unicode. -/
theorem c2_write_json_str_roundtrip (raw w : List Char) :
    writeJsonStr (okStrm w) raw =
      .ok ⟨(okStrm w).fail, 1, w ++ strLit raw⟩ ∧
    decodeStringLit (strLit raw) = some raw := by
  refine ⟨rfl, ?_⟩
  have hlen : raw.length < (escBody raw ++ ['"']).length + 1 := by
    have := escBody_length raw
    rw [List.length_append]
    omega
  have hb := pStrBody_escBody raw ((escBody raw ++ ['"']).length + 1) [] hlen
  have hform : strLit raw = '"' :: (escBody raw ++ ['"']) := by
    rw [strLit, List.cons_append]
  rw [hform, decodeStringLit, if_pos rfl]
  rw [show (escBody raw ++ ['"'] : List Char) = escBody raw ++ '"' :: []
    from rfl] at hb ⊢
  rw [hb]
  rfl

/-- C3 counterexample: with one attribute and a stream failing at write
call 5 (the attribute pair write), the encoder panics instead of
returning the write error to the caller. -/
theorem c3_counterexample_attr_write_error_panics :
    (encodeWith false 0 [] ⟨.info, "m".data, [("k".data, .int 3)]⟩
      (failAtStrm 5 7 [])).kind = .panicked := rfl

/-- C3 amended: a write failure during the five prefix writes (calls 0
to 4: brace, level, ts, msg marker, msg) or during the final
brace-and-newline write is returned immediately and verbatim; a write
failure during an attribute pair write (calls 5 to 4+n) is converted to
a panic by the `unwrap` inside the visitor; a stream that fails later
than every call leaves the encoder returning success. -/
theorem c3_amended_write_error_classification (iso : Bool) (millis : Nat)
    (isoStr : List Char) (r : LogRecord) (k e : Nat) (w : List Char) :
    (encodeWith iso millis isoStr r (failAtStrm k e w)).kind =
      if k < 5 then .err e
      else if k < 5 + r.kvs.length then .panicked
      else if k = 5 + r.kvs.length then .err e
      else .ok :=
  encodeWith_failAt_classify iso millis isoStr r k e w

/-- C4 counterexample: a record with the string-valued attribute
`k = hello` encodes with a success return, yet the emitted line (the
value appears as a bare unquoted word) does not parse as JSON. -/
theorem c4_counterexample_success_with_malformed_line :
    (encodeWith false 0 [] ⟨.warn, "m".data, [("k".data, .text "hello".data)]⟩
      (okStrm [])).kind = .ok ∧
    parseJsonLine (encodeWith false 0 []
      ⟨.warn, "m".data, [("k".data, .text "hello".data)]⟩
      (okStrm [])).out = none := ⟨rfl, rfl⟩

/-- C10: in the panic-hook diagnostic record, a payload that is neither
a string slice nor an owned string yields the message fallback
`Box<Any>`, and a nameless thread yields the `thread` attribute
fallback `unnamed`. -/
theorem c10_panic_hook_fallbacks :
    panicMsg .other = "Box<Any>".data ∧
    panicThreadName none = "unnamed".data ∧
    (panicRecord .other none none).msg =
      "panicked at ".data ++ [apos] ++ "Box<Any>".data ++ [apos] ∧
    (panicRecord .other none none).kvs =
      [("thread".data, .text "unnamed".data)] := ⟨rfl, rfl, rfl, rfl⟩

/-- C5: over a stream that accepts every write, the encoder returns
success and the line has exactly the fixed shape and field order:
opening brace, the unescaped level name in the level field, the ts
field, the escaped message, the attribute chunks in exactly record
order with no sorting or deduplication, and the closing brace followed
by a newline; the level names are the fixed uppercase enumeration. -/
theorem c5_line_shape_and_field_order (iso : Bool) (millis : Nat)
    (isoStr : List Char) (r : LogRecord) (w : List Char) :
    encodeWith iso millis isoStr r (okStrm w) =
      .ok ⟨(okStrm w).fail, 6 + r.kvs.length,
        w ++ ('\x7b' :: ("\"level\":\"".data ++ levelName r.level ++ "\",".data) ++
          tsChunk iso isoStr millis ++ ",\"msg\":".data ++ strLit r.msg ++
          pairsChunk r.kvs ++ ['\x7d', '\n'])⟩ ∧
    levelName .error = "ERROR".data ∧ levelName .warn = "WARN".data ∧
    levelName .info = "INFO".data ∧ levelName .debug = "DEBUG".data ∧
    levelName .trace = "TRACE".data := by
  refine ⟨?_, rfl, rfl, rfl, rfl, rfl⟩
  rw [encodeWith_okStream iso millis isoStr r (okStrm w) (fun i => rfl)]
  rfl

/-- C6: the ts field chunk: in the default build it is `"ts":` followed
by the unquoted decimal digits of the epoch milliseconds (all digit
characters, obtained from a time source modelled as total, since a
pre-epoch clock is unwrapped as unrecoverable); in the iso build it is
a quoted string; the build flag selects exactly one of the two shapes,
never both, as the character after `"ts":` witnesses. -/
theorem c6_ts_modes (millis : Nat) (isoStr : List Char) :
    tsChunk false isoStr millis = "\"ts\":".data ++ natDigits millis ∧
    (natDigits millis).all isDigitCh = true ∧
    tsChunk true isoStr millis = "\"ts\":\"".data ++ isoStr ++ ['"'] ∧
    ((tsChunk true isoStr millis).getD 5 ' ' == '"') = true ∧
    ((tsChunk false isoStr millis).getD 5 ' ' == '"') = false := by
  refine ⟨rfl, natDigits_all_digits millis, rfl, rfl, ?_⟩
  show ((natDigits millis).getD 0 ' ' == '"') = false
  obtain ⟨d, t, heq, hd10, _, _⟩ := natDigits_spec millis
  rw [heq]
  show (digitChar d == '"') = false
  interval_cases d <;> decide

/-- C8: `write_json_str` is total: for every input text and stream its
result is exactly determined by the stream's behavior at the current
call, returning the stream's error verbatim on failure and otherwise
writing the string literal; on empty input that literal is the
two-character text of two quotes. -/
theorem c8_write_json_str_total (raw : List Char) (s : Strm) :
    writeJsonStr s raw =
      (match s.fail s.calls with
       | some e => Except.error e
       | none => Except.ok ⟨s.fail, s.calls + 1, s.out ++ strLit raw⟩) ∧
    strLit [] = ['"', '"'] := ⟨rfl, rfl⟩

/-- C9: determinism across streams: encoding equal records with the
same time-source output into two different streams (different prior
content, different call counters, any never-failing behaviors) appends
byte-identical output. -/
theorem c9_deterministic_output (iso : Bool) (millis : Nat)
    (isoStr : List Char) (r : LogRecord) (s1 s2 : Strm)
    (h1 : ∀ i, s1.fail i = none) (h2 : ∀ i, s2.fail i = none) :
    (encodeWith iso millis isoStr r s1).out.drop s1.out.length =
      (encodeWith iso millis isoStr r s2).out.drop s2.out.length := by
  rw [encodeWith_okStream iso millis isoStr r s1 h1,
    encodeWith_okStream iso millis isoStr r s2 h2]
  show (s1.out ++ encodeLine iso millis isoStr r).drop s1.out.length =
    (s2.out ++ encodeLine iso millis isoStr r).drop s2.out.length
  rw [List.drop_left, List.drop_left]

/-- C9 witness at two concrete, different never-failing streams. -/
theorem c9_deterministic_output_witness :
    (encodeWith false 1 [] ⟨.info, "x".data, []⟩ (okStrm "abc".data)).out.drop
        (okStrm "abc".data).out.length =
      (encodeWith false 1 [] ⟨.info, "x".data, []⟩
        (⟨fun _ => none, 5, []⟩ : Strm)).out.drop
        (⟨fun _ => none, 5, []⟩ : Strm).out.length :=
  c9_deterministic_output false 1 [] ⟨.info, "x".data, []⟩ _ _
    (fun _ => rfl) (fun _ => rfl)

/-- C7: a record with zero attributes encodes (in either timestamp
mode, with the iso string JSON-safe as chrono's RFC3339 output is) to a
line that parses as a JSON object whose members are exactly `level`,
`ts` and `msg`, in that order, with the expected values. -/
theorem c7_zero_attrs_exact_keys (iso : Bool) (millis : Nat)
    (isoStr : List Char) (lv : LogLevel) (msg : List Char)
    (hiso : iso = true → plainChars isoStr = true) :
    parseJsonLine (encodeWith iso millis isoStr ⟨lv, msg, []⟩ (okStrm [])).out =
      some (.obj [("level".data, .str (levelName lv)),
                  ("ts".data, if iso then Json.str isoStr
                              else Json.num (natDigits millis)),
                  ("msg".data, .str msg)]) := by
  rw [encodeWith_okStream iso millis isoStr ⟨lv, msg, []⟩ (okStrm [])
    (fun _ => rfl)]
  show parseJsonLine (([] : List Char) ++
    encodeLine iso millis isoStr ⟨lv, msg, []⟩) = _
  rw [List.nil_append,
    parseJsonLine_encodeLine iso millis isoStr ⟨lv, msg, []⟩ hiso
      (by intro p hp; simp at hp) (by intro p hp; simp at hp)]
  cases iso <;> simp [recordMembers, attrMember]

/-- C7 witness at a concrete record in each respect: iso mode with a
safe timestamp string. -/
theorem c7_zero_attrs_exact_keys_witness :
    parseJsonLine (encodeWith true 0 "2020-01-01T00:00:00.000Z".data
      ⟨.info, "hi".data, []⟩ (okStrm [])).out =
      some (.obj [("level".data, .str "INFO".data),
                  ("ts".data, .str "2020-01-01T00:00:00.000Z".data),
                  ("msg".data, .str "hi".data)]) :=
  c7_zero_attrs_exact_keys true 0 "2020-01-01T00:00:00.000Z".data .info
    "hi".data (by decide)

/-- C4 amended: provided every attribute key contains no quote,
backslash or control character and every attribute value is integer- or
boolean-typed (so that its raw display form is a JSON token), whenever
the encoder returns success the bytes it appended form a complete
well-formed JSON text terminated by a newline; failures propagate the
stream error, except attribute-write failures, which panic (see the C3
classification). -/
theorem c4_amended_success_line_wellformed (iso : Bool) (millis : Nat)
    (isoStr : List Char) (r : LogRecord) (s0 : Strm)
    (hiso : iso = true → plainChars isoStr = true)
    (hkeys : r.kvs.all (fun p => plainChars p.1) = true)
    (hvals : r.kvs.all (fun p => p.2.isScalar) = true)
    (hok : (encodeWith iso millis isoStr r s0).kind = .ok) :
    (parseJsonLine ((encodeWith iso millis isoStr r s0).out.drop
      s0.out.length)).isSome = true ∧
    ((encodeWith iso millis isoStr r s0).out.drop
      s0.out.length).getLast? = some '\n' := by
  obtain ⟨s', hs'⟩ : ∃ s', encodeWith iso millis isoStr r s0 = .ok s' := by
    cases h : encodeWith iso millis isoStr r s0 with
    | ok s' => exact ⟨s', rfl⟩
    | ioErr e s => rw [h] at hok; exact absurd hok (by simp [Outcome.kind])
    | panicked s => rw [h] at hok; exact absurd hok (by simp [Outcome.kind])
  have hout := encodeWith_ok_shape iso millis isoStr r s0 s' hs'
  rw [hs']
  show (parseJsonLine (s'.out.drop s0.out.length)).isSome = true ∧
    (s'.out.drop s0.out.length).getLast? = some '\n'
  rw [hout, List.drop_left]
  constructor
  · rw [parseJsonLine_encodeLine iso millis isoStr r hiso
      (fun p hp => by have := List.all_eq_true.mp hkeys p hp; simpa using this)
      (fun p hp => by have := List.all_eq_true.mp hvals p hp; simpa using this)]
    rfl
  · rw [encodeLine]
    rw [List.getLast?_append]
    rfl

/-- C4 witness at a concrete record with safe keys and an integer and a
boolean attribute, over a never-failing stream. -/
theorem c4_amended_success_line_wellformed_witness :
    (parseJsonLine ((encodeWith false 5 []
      ⟨.debug, "w".data, [("n".data, .int (-2)), ("b".data, .bool true)]⟩
      (okStrm [])).out.drop (okStrm []).out.length)).isSome = true ∧
    ((encodeWith false 5 []
      ⟨.debug, "w".data, [("n".data, .int (-2)), ("b".data, .bool true)]⟩
      (okStrm [])).out.drop (okStrm []).out.length).getLast? = some '\n' :=
  c4_amended_success_line_wellformed false 5 []
    ⟨.debug, "w".data, [("n".data, .int (-2)), ("b".data, .bool true)]⟩
    (okStrm []) (by decide) (by decide) (by decide) (by decide)
